import Mathlib

/-!
Shallow embedding, in Lean 4 over the real numbers, of the from-scratch
numerical learning algorithms of the ML teaching-widget repository:
the logistic classifier with polynomial features, the gradient-descent
polynomial regressor with L1/L2 regularization, the CART-like decision
tree, the k-means state machine, the 2x2-covariance PCA, and the
simplified SMO solver for the SVM.  JavaScript numbers are modelled as
real numbers; JavaScript division is Lean division on the reals
(division by zero yields 0 in the embedding; the JS source yields
Infinity or NaN at those inputs, which is noted at each use).  Each
definition carries the name of the source function it embeds.
-/

/-- A 2D point, the Point2D primitive shared across the widgets. -/
structure Pt where
  x : ℝ
  y : ℝ

namespace LogReg

/-- A labeled training point of the logistic-regression widget,
label 0 or 1 stored as a number (src/LogisticRegression/script.js). -/
structure LPoint where
  x : ℝ
  y : ℝ
  label : ℝ

/-- CONFIG.CANVAS_WIDTH of src/LogisticRegression/script.js. -/
def CANVAS_WIDTH : ℝ := 600

/-- CONFIG.CANVAS_HEIGHT of src/LogisticRegression/script.js. -/
def CANVAS_HEIGHT : ℝ := 500

/-- The sigmoid function of src/LogisticRegression/script.js:
returns exactly 1 for z > 500 and exactly 0 for z < -500. -/
noncomputable def sigmoid (z : ℝ) : ℝ :=
  if z > 500 then 1
  else if z < -500 then 0
  else 1 / (1 + Real.exp (-z))

/-- getPolynomialFeatures of src/LogisticRegression/script.js: the
coordinates are first normalized by the canvas dimensions, then the
feature list is 1 followed, for each total degree d = 1..degree and
each i = 0..d, by normX^i * normY^(d-i). -/
noncomputable def getPolynomialFeatures (x y : ℝ) (degree : ℕ) : List ℝ :=
  let normX := x / CANVAS_WIDTH
  let normY := y / CANVAS_HEIGHT
  1 :: (List.range' 1 degree).flatMap fun d =>
    (List.range (d + 1)).map fun i => normX ^ i * normY ^ (d - i)

/-- predict of src/LogisticRegression/script.js, with the weight vector
and degree passed explicitly in place of the mutable state object: if
the stored weights do not match the feature count, return 0.5, else
return the sigmoid of the dot product. -/
noncomputable def predict (weights : List ℝ) (degree : ℕ) (x y : ℝ) : ℝ :=
  let features := getPolynomialFeatures x y degree
  if weights.length ≠ features.length then 0.5
  else sigmoid ((weights.zip features).map fun wf => wf.1 * wf.2).sum

/-- One epoch of the gradient loop of trainModel in
src/LogisticRegression/script.js: accumulate error * feature over all
points, then subtract learningRate * gradient / n from each weight. -/
noncomputable def trainEpoch (data : List LPoint) (lr : ℝ) (degree : ℕ)
    (w : List ℝ) : List ℝ :=
  let n : ℝ := data.length
  let gradients := data.foldl (fun g p =>
      let features := getPolynomialFeatures p.x p.y degree
      let pr := predict w degree p.x p.y
      let error := pr - p.label
      (g.zip features).map fun gf => gf.1 + error * gf.2)
    (List.replicate (getPolynomialFeatures 0 0 degree).length 0)
  (w.zip gradients).map fun wg => wg.1 - lr * (wg.2 / n)

/-- trainModel of src/LogisticRegression/script.js: weights start as
zeroes of the feature-vector length and epochs epochs of gradient
descent are run.  The source performs no input validation: an empty
dataset flows straight into the division by n = 0. -/
noncomputable def trainModel (data : List LPoint) (lr : ℝ) (degree : ℕ)
    (epochs : ℕ) : List ℝ :=
  let w0 : List ℝ := List.replicate (getPolynomialFeatures 0 0 degree).length 0
  Nat.rec w0 (fun _ w => trainEpoch data lr degree w) epochs

end LogReg

namespace PCA

/-- Entry covXX of the covariance matrix computed by computePCA in
src/PCA/script.js: the sum of x*x over the (already centered) points
divided by n - 1.  The source performs no size validation, so n = 1
divides by zero (Infinity/NaN in JS, 0 in this embedding). -/
noncomputable def covXX (points : List Pt) : ℝ :=
  (points.map fun p => p.x * p.x).sum / ((points.length : ℝ) - 1)

/-- Entry covYY of the covariance matrix of computePCA. -/
noncomputable def covYY (points : List Pt) : ℝ :=
  (points.map fun p => p.y * p.y).sum / ((points.length : ℝ) - 1)

/-- Entry covXY of the covariance matrix of computePCA. -/
noncomputable def covXY (points : List Pt) : ℝ :=
  (points.map fun p => p.x * p.y).sum / ((points.length : ℝ) - 1)

/-- The output of computePCA: the two eigenvalues and the two
principal-component unit vectors it stores into the state. -/
structure PCAResult where
  L1 : ℝ
  L2 : ℝ
  pc1 : Pt
  pc2 : Pt

/-- computePCA of src/PCA/script.js: closed-form eigendecomposition of
the 2x2 covariance matrix.  When |covXY| < 1e-6 the principal axes are
the coordinate axes, picked by comparing covXX with covYY; otherwise
pc1 is (1, (L1-a)/b) normalized and pc2 its rotation (-pc1.y, pc1.x). -/
noncomputable def computePCA (points : List Pt) : PCAResult :=
  let a := covXX points
  let b := covXY points
  let d := covYY points
  let trace := a + d
  let det := a * d - b * b
  let term := Real.sqrt (trace * trace - 4 * det)
  let L1 := (trace + term) / 2
  let L2 := (trace - term) / 2
  if |b| < 1e-6 then
    if a > d then ⟨L1, L2, ⟨1, 0⟩, ⟨0, 1⟩⟩
    else ⟨L1, L2, ⟨0, 1⟩, ⟨1, 0⟩⟩
  else
    let v1y := (L1 - a) / b
    let len1 := Real.sqrt (1 * 1 + v1y * v1y)
    let pc1 : Pt := ⟨1 / len1, v1y / len1⟩
    ⟨L1, L2, pc1, ⟨-pc1.y, pc1.x⟩⟩

end PCA

namespace PolyReg

/-- The regularization selector of the polynomial-regression widget in
src/PCA/script.js (state.regType: none, l1 or l2). -/
inductive RegType
  | none
  | l1
  | l2

/-- predict of the polynomial-regression widget in src/PCA/script.js:
the dot product of the weights with the powers x^0 .. x^(len-1). -/
noncomputable def predict (w : List ℝ) (x : ℝ) : ℝ :=
  (w.enum.map fun iw => iw.2 * x ^ iw.1).sum

/-- The MSE gradient accumulated by gdStep in src/PCA/script.js:
gradients[i] summed over points of (2/N) * (predict(x) - y) * x^i. -/
noncomputable def gradients (points : List Pt) (w : List ℝ) : List ℝ :=
  let N : ℝ := points.length
  points.foldl (fun g p =>
      let error := predict w p.x - p.y
      g.enum.map fun ig => ig.2 + (2 / N) * error * p.x ^ ig.1)
    (List.replicate w.length 0)

/-- gdStep of src/PCA/script.js: one gradient-descent update of every
weight.  The bias weight (index 0) always takes the plain step; under
l2 the others take the weight-decay step, under l1 they take the plain
step followed by soft thresholding with alpha = lr * lambda. -/
noncomputable def gdStep (points : List Pt) (lr lambda : ℝ) (rt : RegType)
    (w : List ℝ) : List ℝ :=
  let g := gradients points w
  w.enum.map fun iw =>
    let i := iw.1
    let wi := iw.2
    let gi := g.getD i 0
    let newW := wi - lr * gi
    if i = 0 then newW
    else
      match rt with
      | .l2 => wi - lr * (gi + 2 * lambda * wi)
      | .l1 =>
        let alpha := lr * lambda
        Real.sign newW * max 0 (|newW| - alpha)
      | .none => newW

end PolyReg

namespace DT

/-- The two class labels of the decision-tree widget
(src/DecisionTree/script.js). -/
inductive DTLabel
  | A
  | B
deriving DecidableEq

/-- A labeled training point of the decision-tree widget. -/
structure DPt where
  x : ℝ
  y : ℝ
  label : DTLabel

/-- The two split axes of the decision-tree widget. -/
inductive Feature
  | x
  | y
deriving DecidableEq

/-- Coordinate access p[feature] used throughout the tree code. -/
def DPt.get (p : DPt) : Feature → ℝ
  | .x => p.x
  | .y => p.y

/-- The split criterion (state.criterion). -/
inductive Criterion
  | gini
  | entropy

/-- A candidate split: feature and threshold value. -/
structure Split where
  feature : Feature
  value : ℝ

/-- giniImpurity of src/DecisionTree/script.js:
1 - (pA^2 + pB^2) with pB = 1 - pA, and 0 on an empty group. -/
noncomputable def giniImpurity (group : List DPt) : ℝ :=
  if group.length = 0 then 0
  else
    let countA := (group.filter fun p => p.label = DTLabel.A).length
    let pA := (countA : ℝ) / group.length
    let pB := 1 - pA
    1 - (pA * pA + pB * pB)

/-- entropy of src/DecisionTree/script.js, with the p = 0 guard
replacing log2(0) by 0. -/
noncomputable def entropy (group : List DPt) : ℝ :=
  if group.length = 0 then 0
  else
    let countA := (group.filter fun p => p.label = DTLabel.A).length
    let pA := (countA : ℝ) / group.length
    let pB := 1 - pA
    let log2A := if pA = 0 then 0 else Real.logb 2 pA
    let log2B := if pB = 0 then 0 else Real.logb 2 pB
    Neg.neg (pA * log2A + pB * log2B)

/-- calculateCost of src/DecisionTree/script.js: size-weighted impurity
of the two partitions under the chosen criterion. -/
noncomputable def calculateCost (crit : Criterion) (left right : List DPt) : ℝ :=
  let total : ℝ := left.length + right.length
  let wLeft := left.length / total
  let wRight := right.length / total
  match crit with
  | .gini => wLeft * giniImpurity left + wRight * giniImpurity right
  | .entropy => wLeft * entropy left + wRight * entropy right

/-- The inner candidate loop of findBestSplit in
src/DecisionTree/script.js for one feature: walk the consecutive pairs
of the sorted data, skip pairs with equal coordinate, take the midpoint
as threshold, partition the full data by p[feature] <= threshold, and
keep the split whenever its weighted impurity beats the best so far
(the best impurity starts at Infinity, modelled as the top EReal). -/
noncomputable def scanSplits (crit : Criterion) (data : List DPt) (f : Feature) :
    List DPt → EReal × Option Split → EReal × Option Split
  | p1 :: p2 :: rest, acc =>
    let acc2 :=
      if p1.get f = p2.get f then acc
      else
        let splitValue := (p1.get f + p2.get f) / 2
        let leftGroup := data.filter fun p => p.get f ≤ splitValue
        let rightGroup := data.filter fun p => ¬(p.get f ≤ splitValue)
        let impurity := calculateCost crit leftGroup rightGroup
        if (impurity : EReal) < acc.1 then ((impurity : EReal), some ⟨f, splitValue⟩)
        else acc
    scanSplits crit data f (p2 :: rest) acc2
  | _, acc => acc
termination_by sorted acc => sorted.length

/-- The per-feature sort of findBestSplit:
[...data].sort((a, b) => a[feature] - b[feature]). -/
noncomputable def sortByFeature (f : Feature) (data : List DPt) : List DPt :=
  data.mergeSort fun a b => decide (a.get f ≤ b.get f)

/-- findBestSplit of src/DecisionTree/script.js: scan the x candidates
and then the y candidates, threading a single running best, and return
the best split found (none when no candidate exists). -/
noncomputable def findBestSplit (crit : Criterion) (data : List DPt) :
    Option Split :=
  (scanSplits crit data .y (sortByFeature .y data)
    (scanSplits crit data .x (sortByFeature .x data) (⊤, none))).2

/-- A node of the built tree: the source Node class with isLeaf true
collapses to leaf (classCounts and predictedClass retained), and an
internal node additionally carries the split and the two children. -/
inductive Node
  | leaf (countA countB : ℕ) (pred : DTLabel)
  | node (countA countB : ℕ) (pred : DTLabel) (split : Split)
      (left right : Node)

/-- buildTree of src/DecisionTree/script.js: count classes, choose the
majority prediction (ties to A), stop on max depth, purity or fewer
than 2 points, otherwise split by findBestSplit; a missing split or an
empty partition forces a leaf, else recurse on the two partitions. -/
noncomputable def buildTree (crit : Criterion) (maxDepth : ℕ)
    (data : List DPt) (depth : ℕ) : Node :=
  let countA := (data.filter fun p => p.label = DTLabel.A).length
  let countB := (data.filter fun p => ¬(p.label = DTLabel.A)).length
  let pred := if countB ≤ countA then DTLabel.A else DTLabel.B
  if h : maxDepth ≤ depth ∨ countA = 0 ∨ countB = 0 ∨ data.length < 2 then
    .leaf countA countB pred
  else
    match findBestSplit crit data with
    | none => .leaf countA countB pred
    | some split =>
      let leftData := data.filter fun p => p.get split.feature ≤ split.value
      let rightData := data.filter fun p => ¬(p.get split.feature ≤ split.value)
      if leftData.length = 0 ∨ rightData.length = 0 then
        .leaf countA countB pred
      else
        .node countA countB pred split
          (buildTree crit maxDepth leftData (depth + 1))
          (buildTree crit maxDepth rightData (depth + 1))
termination_by maxDepth - depth
decreasing_by
  all_goals
    push_neg at h
    omega

/-- The leaf-justification predicate of the leaf-purity invariant,
indexed by the dataset that reaches each node: internal nodes hand
their recorded split's two partitions of the actual data to their
children, and a leaf is required to carry exactly the class counts of
its actual data and to be either pure (one class count zero), or
forced by reaching maxDepth, or forced by holding fewer than 2 points,
or forced because findBestSplit found no valid split on that very
data.  No disjunct covers the "best split produces an empty
partition" stop of the source, so the predicate can only hold of a
tree in which that stop never emitted a leaf. -/
def TreeJustified (crit : Criterion) (maxDepth : ℕ) :
    Node → List DPt → ℕ → Prop
  | .leaf cA cB _, data, d =>
    cA = (data.filter fun p => p.label = DTLabel.A).length ∧
    cB = (data.filter fun p => ¬(p.label = DTLabel.A)).length ∧
    (cA = 0 ∨ cB = 0 ∨ maxDepth ≤ d ∨ data.length < 2 ∨
      findBestSplit crit data = none)
  | .node _ _ _ split l r, data, d =>
    TreeJustified crit maxDepth l
      (data.filter fun p => p.get split.feature ≤ split.value) (d + 1) ∧
    TreeJustified crit maxDepth r
      (data.filter fun p => ¬(p.get split.feature ≤ split.value)) (d + 1)

/-- A split partitions the dataset into two nonempty groups: some
point falls at or below the threshold and some point falls above. -/
def GoodSplit (data : List DPt) (s : Split) : Prop :=
  (∃ p ∈ data, p.get s.feature ≤ s.value) ∧
    (∃ q ∈ data, ¬(q.get s.feature ≤ s.value))

end DT

namespace KM

/-- A data point of the k-means widget (src/unnamed/part_004): a 2D
point carrying its current clusterIndex, -1 before assignment. -/
structure KPoint where
  x : ℝ
  y : ℝ
  clusterIndex : ℤ

/-- A centroid of the k-means widget: its position (the colorIndex
rendering attribute is omitted). -/
structure Centroid where
  x : ℝ
  y : ℝ

/-- euclideanDistance of src/unnamed/part_004. -/
noncomputable def euclideanDistance (p1 p2 : Pt) : ℝ :=
  Real.sqrt ((p2.x - p1.x) ^ 2 + (p2.y - p1.y) ^ 2)

/-- The per-point minimum-distance search of assignClusters in
src/unnamed/part_004: fold over the centroids with minDist starting at
Infinity (the top EReal) and clusterIndex starting at -1, replacing
the best on a strictly smaller distance (so ties keep the earlier
centroid). -/
noncomputable def assignPoint (centroids : List Centroid) (p : KPoint) : ℤ :=
  (centroids.enum.foldl (fun acc ic =>
      let dist := euclideanDistance ⟨p.x, p.y⟩ ⟨ic.2.x, ic.2.y⟩
      if (dist : EReal) < acc.1 then ((dist : EReal), (ic.1 : ℤ)) else acc)
    ((⊤ : EReal), (-1 : ℤ))).2

/-- assignClusters of src/unnamed/part_004: set every clusterIndex to
the index of the nearest centroid. -/
noncomputable def assignClusters (centroids : List Centroid)
    (data : List KPoint) : List KPoint :=
  data.map fun p => { p with clusterIndex := assignPoint centroids p }

/-- The points currently assigned to the centroid at index idx (the
clusterPoints filter of updateCentroids in src/unnamed/part_004). -/
def clusterPts (data : List KPoint) (idx : ℕ) : List KPoint :=
  data.filter fun p => p.clusterIndex = (idx : ℤ)

/-- The mean position (newX, newY) of the points assigned to the
centroid at index idx, as computed by updateCentroids. -/
noncomputable def clusterMean (data : List KPoint) (idx : ℕ) : Pt :=
  ⟨((clusterPts data idx).map fun p => p.x).sum / (clusterPts data idx).length,
   ((clusterPts data idx).map fun p => p.y).sum / (clusterPts data idx).length⟩

/-- The loop body of updateCentroids in src/unnamed/part_004 for one
centroid at index idx: if some points are assigned to it, compute the
mean of those points; when the mean lies strictly more than
threshold = 1.0 away the centroid moves there (flag true), otherwise
(and when no points are assigned) it keeps its position (flag false). -/
noncomputable def updateCentroid (data : List KPoint) (idx : ℕ)
    (c : Centroid) : Centroid × Bool :=
  let clusterPoints := clusterPts data idx
  if clusterPoints.length ≠ 0 then
    let newX := (clusterMean data idx).x
    let newY := (clusterMean data idx).y
    let dist := Real.sqrt ((newX - c.x) ^ 2 + (newY - c.y) ^ 2)
    if dist > 1 then (⟨newX, newY⟩, true) else (c, false)
  else (c, false)

/-- updateCentroids of src/unnamed/part_004: apply the loop body to
every centroid; moved is true when at least one centroid moved. -/
noncomputable def updateCentroids (data : List KPoint)
    (centroids : List Centroid) : List Centroid × Bool :=
  let results := centroids.enum.map fun ic => updateCentroid data ic.1 ic.2
  (results.map fun r => r.1, results.any fun r => r.2)

/-- The states of the k-means state machine (ALGO_STATE). -/
inductive AlgoState
  | IDLE
  | INIT
  | ASSIGN
  | UPDATE
  | CONVERGED
deriving DecidableEq

/-- The mutable state of the k-means widget that performNextStep
reads and writes. -/
structure KMState where
  data : List KPoint
  centroids : List Centroid
  algoState : AlgoState
  iteration : ℕ

/-- performNextStep of src/unnamed/part_004.  The INIT phase samples k
random data points as centroids; its randomness is abstracted as the
initFn argument producing the initial centroids from the data.  ASSIGN
reassigns all points and moves to UPDATE; UPDATE recomputes centroids
and moves to CONVERGED exactly when no centroid moved, else back to
ASSIGN; CONVERGED is absorbing. -/
noncomputable def performNextStep (initFn : List KPoint → List Centroid)
    (s : KMState) : KMState :=
  match s.algoState with
  | .IDLE | .INIT =>
    { s with centroids := initFn s.data, algoState := .ASSIGN }
  | .ASSIGN =>
    { s with data := assignClusters s.centroids s.data,
             algoState := .UPDATE }
  | .UPDATE =>
    let res := updateCentroids s.data s.centroids
    { s with centroids := res.1,
             iteration := s.iteration + 1,
             algoState := if res.2 then .ASSIGN else .CONVERGED }
  | .CONVERGED => s

/-- The shift of the centroid at index idx towards the mean of its
assigned points, as measured inside updateCentroids. -/
noncomputable def meanShift (data : List KPoint) (idx : ℕ)
    (c : Centroid) : ℝ :=
  Real.sqrt (((clusterMean data idx).x - c.x) ^ 2 +
    ((clusterMean data idx).y - c.y) ^ 2)

/-- The total within-cluster sum of squared distances of each point to
its assigned centroid, the quantity of the k-means monotonicity
property (points whose clusterIndex does not address a centroid
contribute 0). -/
noncomputable def wcss (data : List KPoint) (centroids : List Centroid) : ℝ :=
  (data.map fun p =>
    if p.clusterIndex.toNat < centroids.length then
      euclideanDistance ⟨p.x, p.y⟩
        ⟨(centroids.getD p.clusterIndex.toNat ⟨0, 0⟩).x,
         (centroids.getD p.clusterIndex.toNat ⟨0, 0⟩).y⟩ ^ 2
    else 0).sum

end KM

namespace SMO

/-- A labeled training point of the SVM widget (src/unnamed/part_002),
label +1 or -1 stored as a number. -/
structure SPoint where
  x : ℝ
  y : ℝ
  label : ℝ

/-- The kernel selector (state.kernel). -/
inductive KernelType
  | linear
  | rbf

/-- The normalization scale of the kernel in src/unnamed/part_002:
max(CANVAS_WIDTH, CANVAS_HEIGHT) = max(600, 400). -/
def scale : ℝ := 600

/-- kernel of src/unnamed/part_002: the normalized dot product, or the
RBF kernel with gamma = 10 over the scaled difference. -/
noncomputable def kernel (kt : KernelType) (v1 v2 : Pt) : ℝ :=
  match kt with
  | .linear => (v1.x / scale) * (v2.x / scale) + (v1.y / scale) * (v2.y / scale)
  | .rbf =>
    let dx := (v1.x - v2.x) / scale
    let dy := (v1.y - v2.y) / scale
    Real.exp (-(10 : ℝ) * (dx * dx + dy * dy))

/-- The Lagrange-multiplier state mutated by trainSVM: the alphas
(one per training point) and the bias b. -/
structure SVMState where
  alphas : List ℝ
  b : ℝ

/-- The default point used when an index reads past the dataset (the
source never does in a sweep; the label defaults to 1). -/
def defaultSPoint : SPoint := ⟨0, 0, 1⟩

/-- decisionFunction of src/unnamed/part_002:
f(x) = sum over points with alpha > 0 of alpha * y * K(x_i, x), + b. -/
noncomputable def decisionFunction (data : List SPoint) (kt : KernelType)
    (s : SVMState) (p : Pt) : ℝ :=
  (data.enum.map fun ip =>
    let a := s.alphas.getD ip.1 0
    if a > 0 then a * ip.2.label * kernel kt ⟨ip.2.x, ip.2.y⟩ p else 0).sum
    + s.b

/-- The body of the inner i-loop of trainSVM in src/unnamed/part_002
for a fixed pair (i, j): the KKT-violation test, the box constraints
L and H, the eta test, the clipped alpha_j update (note the source
writes the clipped alpha_j back before the minimal-change test, so a
sub-1e-5 change still sticks), the alpha_i update and the bias update.
Returns the new state and whether numChangedAlphas was incremented. -/
noncomputable def smoInner (data : List SPoint) (kt : KernelType)
    (C tol : ℝ) (s : SVMState) (i j : ℕ) : SVMState × Bool :=
  let pi := data.getD i defaultSPoint
  let Ei := decisionFunction data kt s ⟨pi.x, pi.y⟩ - pi.label
  let ai := s.alphas.getD i 0
  if (pi.label * Ei < -tol ∧ ai < C) ∨ (pi.label * Ei > tol ∧ ai > 0) then
    let pj := data.getD j defaultSPoint
    let Ej := decisionFunction data kt s ⟨pj.x, pj.y⟩ - pj.label
    let aiOld := ai
    let ajOld := s.alphas.getD j 0
    let L := if pi.label ≠ pj.label then max 0 (ajOld - aiOld)
             else max 0 (aiOld + ajOld - C)
    let H := if pi.label ≠ pj.label then min C (C + ajOld - aiOld)
             else min C (aiOld + ajOld)
    if L = H then (s, false)
    else
      let eta := 2 * kernel kt ⟨pi.x, pi.y⟩ ⟨pj.x, pj.y⟩
        - kernel kt ⟨pi.x, pi.y⟩ ⟨pi.x, pi.y⟩
        - kernel kt ⟨pj.x, pj.y⟩ ⟨pj.x, pj.y⟩
      if eta ≥ 0 then (s, false)
      else
        let ajNew := min H (max L (ajOld - pj.label * (Ei - Ej) / eta))
        let s1 : SVMState := ⟨s.alphas.set j ajNew, s.b⟩
        if |ajNew - ajOld| < 1e-5 then (s1, false)
        else
          let aiNew := aiOld + pi.label * pj.label * (ajOld - ajNew)
          let s2 : SVMState := ⟨s1.alphas.set i aiNew, s.b⟩
          let b1 := s.b - Ei
            - pi.label * (aiNew - aiOld) * kernel kt ⟨pi.x, pi.y⟩ ⟨pi.x, pi.y⟩
            - pj.label * (ajNew - ajOld) * kernel kt ⟨pi.x, pi.y⟩ ⟨pj.x, pj.y⟩
          let b2 := s.b - Ej
            - pi.label * (aiNew - aiOld) * kernel kt ⟨pi.x, pi.y⟩ ⟨pj.x, pj.y⟩
            - pj.label * (ajNew - ajOld) * kernel kt ⟨pj.x, pj.y⟩ ⟨pj.x, pj.y⟩
          let bNew := if 0 < aiNew ∧ aiNew < C then b1
            else if 0 < ajNew ∧ ajNew < C then b2
            else (b1 + b2) / 2
          (⟨s2.alphas, bNew⟩, true)
  else (s, false)

/-- One sweep of the inner for-loop of trainSVM over all i.  The
random choice of a distinct j is abstracted as the oracle: at step t
the source draws j in 0..N-2 uniformly and bumps it past i; here
j0 = oracle t plays the draw.  Returns the new state, the value of
numChangedAlphas and the advanced oracle position. -/
noncomputable def smoSweep (data : List SPoint) (kt : KernelType)
    (C tol : ℝ) (oracle : ℕ → ℕ) (t0 : ℕ) (s0 : SVMState) :
    SVMState × ℕ × ℕ :=
  (List.range data.length).foldl (fun acc i =>
      let j0 := oracle acc.2.2
      let j := if i ≤ j0 then j0 + 1 else j0
      let res := smoInner data kt C tol acc.1 i j
      (res.1, (if res.2 then acc.2.1 + 1 else acc.2.1), acc.2.2 + 1))
    (s0, 0, t0)

/-- The while loop of trainSVM in src/unnamed/part_002: run sweeps
while passes < maxPasses and iter < maxIter, resetting passes to 0 on
any changed alpha and incrementing it otherwise.  Returns the final
state and the number of sweeps performed (the final iter). -/
noncomputable def smoLoop (data : List SPoint) (kt : KernelType)
    (C tol : ℝ) (oracle : ℕ → ℕ) (maxPasses maxIter : ℕ)
    (s : SVMState) (passes iter t : ℕ) : SVMState × ℕ :=
  if h : passes < maxPasses ∧ iter < maxIter then
    let res := smoSweep data kt C tol oracle t s
    let passes2 := if res.2.1 = 0 then passes + 1 else 0
    smoLoop data kt C tol oracle maxPasses maxIter res.1 passes2
      (iter + 1) res.2.2
  else (s, iter)
termination_by maxIter - iter
decreasing_by omega

/-- trainSVM of src/unnamed/part_002: alphas start at 0, b at 0,
maxPasses = 10, tol = 1e-4, maxIter = 2000. -/
noncomputable def trainSVM (data : List SPoint) (kt : KernelType)
    (C : ℝ) (oracle : ℕ → ℕ) : SVMState × ℕ :=
  smoLoop data kt C (1e-4) oracle 10 2000
    ⟨List.replicate data.length 0, 0⟩ 0 0 0

/-- The box invariant of the SMO solver: every Lagrange multiplier
lies in [0, C]. -/
def BoxInv (C : ℝ) (alphas : List ℝ) : Prop :=
  ∀ a ∈ alphas, 0 ≤ a ∧ a ≤ C

end SMO

/-!
Theorems.  Each claim of the specification is settled by exactly one
theorem below; auxiliary lemmas carry their own names and are shared
freely among proofs.
-/

/-- C1: the claim states getPolynomialFeatures(x, y, 2) returns
[1, x, y, x^2, xy, y^2].  The code instead returns, with normalized
coordinates nx = x/600 and ny = y/500, the vector
[1, ny, nx, ny^2, nx*ny, nx^2]: for each total degree the exponent of
x runs upward while the pushed term is nx^i * ny^(d-i), so the y term
precedes the x term, contradicting the doc comment directly above the
source function and the degree-1 boundary-drawing code which reads
weights[1] as the x coefficient.  At (x, y) = (600, 0) the code yields
[1, 0, 1, 0, 0, 1], which is neither the claimed raw vector
[1, 600, 0, 360000, 0, 0] nor its normalized form [1, 1, 0, 1, 0, 0]. -/
theorem getPolynomialFeatures_order_contradicts_doc :
    LogReg.getPolynomialFeatures 600 0 2 = [1, 0, 1, 0, 0, 1] ∧
    LogReg.getPolynomialFeatures 600 0 2 ≠ [1, 600, 0, 600 ^ 2, 0, 0] ∧
    LogReg.getPolynomialFeatures 600 0 2 ≠ [1, 1, 0, 1, 0, 0] := by
  refine ⟨?_, ?_, ?_⟩ <;>
    simp [LogReg.getPolynomialFeatures, LogReg.CANVAS_WIDTH,
      LogReg.CANVAS_HEIGHT, List.range', List.range_succ]

/-- C2: the claim states every training operation on fewer than 2
points fails fast with an InvalidInput error.  Neither trainModel of
the logistic widget nor computePCA of the PCA widget validates its
input: both proceed straight into the division by n, resp. n - 1.
Here computePCA on the single point (3, 4) runs to completion and
returns principal axes (division by n - 1 = 0 yields 0 in the real
embedding; the JS source produces Infinity covariances), and
trainModel on the empty dataset runs its epoch loop and returns a
weight vector (the JS source produces NaN weights from 0/0); no
failure path exists in either. -/
theorem training_ops_proceed_without_validation (lr : ℝ) :
    PCA.computePCA [⟨3, 4⟩] = ⟨0, 0, ⟨0, 1⟩, ⟨1, 0⟩⟩ ∧
    LogReg.trainModel [] lr 1 1 = [0, 0, 0] := by
  constructor
  · simp [PCA.computePCA, PCA.covXX, PCA.covYY, PCA.covXY]
    norm_num
  · simp [LogReg.trainModel, LogReg.trainEpoch, LogReg.getPolynomialFeatures,
      List.range', List.replicate]

/-- C9: predict of the logistic widget returns exactly 0.5 whenever
the stored weight vector length differs from the feature vector length
for the requested degree; no error is raised and the weights are not
consulted. -/
theorem predict_returns_half_on_weight_length_mismatch
    (w : List ℝ) (degree : ℕ) (x y : ℝ)
    (h : w.length ≠ (LogReg.getPolynomialFeatures x y degree).length) :
    LogReg.predict w degree x y = 0.5 := by
  simp only [LogReg.predict, if_pos h]

/-- C9 witness: the empty weight vector (the state before any
training) has length 0, the degree-1 feature vector has length 3, and
predict returns 0.5. -/
theorem predict_returns_half_on_weight_length_mismatch_witness :
    ([] : List ℝ).length ≠ (LogReg.getPolynomialFeatures 0 0 1).length ∧
    LogReg.predict [] 1 0 0 = 0.5 :=
  ⟨by simp [LogReg.getPolynomialFeatures, List.range'],
   predict_returns_half_on_weight_length_mismatch [] 1 0 0
     (by simp [LogReg.getPolynomialFeatures, List.range'])⟩

/-- C6: under l1 regularization, gdStep of the polynomial-regression
widget updates every non-bias weight by first taking the unregularized
gradient step and then soft-thresholding with alpha = lr * lambda,
while the bias weight at index 0 takes only the unregularized step. -/
theorem gdStep_l1_soft_thresholding (points : List Pt) (lr lambda : ℝ)
    (w : List ℝ) (i : ℕ) (hl : 0 < lambda) (hi : i < w.length) :
    (PolyReg.gdStep points lr lambda .l1 w).getD i 0 =
      if i = 0 then
        w.getD i 0 - lr * (PolyReg.gradients points w).getD i 0
      else
        Real.sign (w.getD i 0 - lr * (PolyReg.gradients points w).getD i 0) *
          max 0 (|w.getD i 0 - lr * (PolyReg.gradients points w).getD i 0|
            - lr * lambda) := by
  unfold PolyReg.gdStep
  rw [List.getD_eq_getElem?_getD, List.getElem?_map, List.getElem?_enum,
    List.getElem?_eq_getElem hi]
  simp [List.getD_eq_getElem?_getD, List.getElem?_eq_getElem hi]

/-- C6 witness: instantiation on the weight vector [2, 3] at index 1
with lambda = 1, discharging both hypotheses. -/
theorem gdStep_l1_soft_thresholding_witness :
    (0 : ℝ) < 1 ∧ 1 < ([2, 3] : List ℝ).length ∧
    (PolyReg.gdStep [] 1 1 .l1 [2, 3]).getD 1 0 =
      if 1 = 0 then
        ([2, 3] : List ℝ).getD 1 0 - 1 * (PolyReg.gradients [] [2, 3]).getD 1 0
      else
        Real.sign (([2, 3] : List ℝ).getD 1 0
            - 1 * (PolyReg.gradients [] [2, 3]).getD 1 0) *
          max 0 (|([2, 3] : List ℝ).getD 1 0
            - 1 * (PolyReg.gradients [] [2, 3]).getD 1 0| - 1 * 1) :=
  ⟨by norm_num, by norm_num,
   gdStep_l1_soft_thresholding [] 1 1 [2, 3] 1 (by norm_num) (by norm_num)⟩

/-- C8 counterexample: on the centered two-point dataset
(0, 2), (0, -2) the covariance matrix is diagonal with covYY = 8 >
covXX = 0, so computePCA takes the axis-aligned branch and returns
pc1 = (0, 1), pc2 = (1, 0); the rotation (-pc1.y, pc1.x) = (-1, 0)
differs from the returned pc2, refuting the claim that pc2 always
equals the rotation of pc1. -/
theorem computePCA_pc2_not_rotation_of_pc1 :
    (PCA.computePCA [⟨0, 2⟩, ⟨0, -2⟩]).pc1 = ⟨0, 1⟩ ∧
    (PCA.computePCA [⟨0, 2⟩, ⟨0, -2⟩]).pc2 = ⟨1, 0⟩ ∧
    (PCA.computePCA [⟨0, 2⟩, ⟨0, -2⟩]).pc2 ≠
      ⟨-(PCA.computePCA [⟨0, 2⟩, ⟨0, -2⟩]).pc1.y,
        (PCA.computePCA [⟨0, 2⟩, ⟨0, -2⟩]).pc1.x⟩ := by
  have h64 : Real.sqrt 64 = 8 := by
    rw [show (64 : ℝ) = 8 ^ 2 by norm_num,
      Real.sqrt_sq (by norm_num : (0 : ℝ) ≤ 8)]
  have h : PCA.computePCA [⟨0, 2⟩, ⟨0, -2⟩] = ⟨8, 0, ⟨0, 1⟩, ⟨1, 0⟩⟩ := by
    simp [PCA.computePCA, PCA.covXX, PCA.covYY, PCA.covXY]
    norm_num [h64]
  rw [h]
  refine ⟨rfl, rfl, ?_⟩
  intro hc
  have := congrArg Pt.x hc
  norm_num at this

/-- C8: the two principal-component vectors returned by computePCA are
always unit length and mutually orthogonal (exactly, over the reals).
Amended from the claim: pc2 equals the rotation (-pc1.y, pc1.x) only
in the |covXY| >= 1e-6 branch; in the axis-aligned branch the code
returns the coordinate axes, with pc1 the axis of larger variance
(the y axis on ties) and pc2 the other axis, which for covXX <= covYY
is (1, 0), not the rotation (-1, 0). -/
theorem computePCA_axes_unit_orthogonal (points : List Pt) :
    (PCA.computePCA points).pc1.x ^ 2 + (PCA.computePCA points).pc1.y ^ 2 = 1 ∧
    (PCA.computePCA points).pc2.x ^ 2 + (PCA.computePCA points).pc2.y ^ 2 = 1 ∧
    (PCA.computePCA points).pc1.x * (PCA.computePCA points).pc2.x +
      (PCA.computePCA points).pc1.y * (PCA.computePCA points).pc2.y = 0 ∧
    (1e-6 ≤ |PCA.covXY points| →
      (PCA.computePCA points).pc2 =
        ⟨-(PCA.computePCA points).pc1.y, (PCA.computePCA points).pc1.x⟩) ∧
    (|PCA.covXY points| < 1e-6 →
      (PCA.covYY points < PCA.covXX points →
        (PCA.computePCA points).pc1 = ⟨1, 0⟩ ∧
        (PCA.computePCA points).pc2 = ⟨0, 1⟩) ∧
      (PCA.covXX points ≤ PCA.covYY points →
        (PCA.computePCA points).pc1 = ⟨0, 1⟩ ∧
        (PCA.computePCA points).pc2 = ⟨1, 0⟩)) := by
  unfold PCA.computePCA
  set a := PCA.covXX points with ha
  set b := PCA.covXY points with hb
  set d := PCA.covYY points with hd
  by_cases hsmall : |b| < 1e-6
  · rw [if_pos hsmall]
    by_cases had : a > d
    · rw [if_pos had]
      refine ⟨by norm_num, by norm_num, by norm_num, ?_, ?_⟩
      · intro hge
        linarith
      · intro hlt
        exact ⟨fun _ => ⟨rfl, rfl⟩, fun hle => absurd had (not_lt.mpr hle)⟩
    · rw [if_neg had]
      refine ⟨by norm_num, by norm_num, by norm_num, ?_, ?_⟩
      · intro hge
        linarith
      · intro hlt
        exact ⟨fun h => absurd h had, fun _ => ⟨rfl, rfl⟩⟩
  · rw [if_neg hsmall]
    push_neg at hsmall
    set L1 := (a + d + Real.sqrt ((a + d) * (a + d) - 4 * (a * d - b * b))) / 2
    set v1y := (L1 - a) / b with hv1y
    have hpos : (0 : ℝ) < 1 * 1 + v1y * v1y := by nlinarith [sq_nonneg v1y]
    have hlen : Real.sqrt (1 * 1 + v1y * v1y) ^ 2 = 1 * 1 + v1y * v1y :=
      Real.sq_sqrt (le_of_lt hpos)
    have hlenpos : 0 < Real.sqrt (1 * 1 + v1y * v1y) :=
      Real.sqrt_pos.mpr hpos
    set len1 := Real.sqrt (1 * 1 + v1y * v1y)
    refine ⟨?_, ?_, by ring, fun _ => rfl,
      fun h => absurd h (not_lt.mpr hsmall)⟩
    · calc (1 / len1) ^ 2 + (v1y / len1) ^ 2
          = (1 * 1 + v1y * v1y) / len1 ^ 2 := by ring
        _ = len1 ^ 2 / len1 ^ 2 := by rw [hlen]
        _ = 1 := div_self (pow_ne_zero 2 hlenpos.ne')
    · calc (-(v1y / len1)) ^ 2 + (1 / len1) ^ 2
          = (1 * 1 + v1y * v1y) / len1 ^ 2 := by ring
        _ = len1 ^ 2 / len1 ^ 2 := by rw [hlen]
        _ = 1 := div_self (pow_ne_zero 2 hlenpos.ne')

/-- C8 witness: the unit-norm and branch facts instantiated on the
concrete dataset (0, 2), (0, -2). -/
theorem computePCA_axes_unit_orthogonal_witness :
    (PCA.computePCA [⟨0, 2⟩, ⟨0, -2⟩]).pc1.x ^ 2 +
      (PCA.computePCA [⟨0, 2⟩, ⟨0, -2⟩]).pc1.y ^ 2 = 1 ∧
    |PCA.covXY [⟨0, 2⟩, ⟨0, -2⟩]| < 1e-6 ∧
    PCA.covXX [⟨0, 2⟩, ⟨0, -2⟩] ≤ PCA.covYY [⟨0, 2⟩, ⟨0, -2⟩] ∧
    (PCA.computePCA [⟨0, 2⟩, ⟨0, -2⟩]).pc1 = ⟨0, 1⟩ :=
  have hxy : |PCA.covXY [⟨0, 2⟩, ⟨0, -2⟩]| < 1e-6 := by
    simp [PCA.covXY]
    norm_num
  have hle : PCA.covXX [⟨0, 2⟩, ⟨0, -2⟩] ≤ PCA.covYY [⟨0, 2⟩, ⟨0, -2⟩] := by
    simp [PCA.covXX, PCA.covYY]
    norm_num
  ⟨(computePCA_axes_unit_orthogonal [⟨0, 2⟩, ⟨0, -2⟩]).1, hxy, hle,
   ((((computePCA_axes_unit_orthogonal [⟨0, 2⟩, ⟨0, -2⟩]).2.2.2.2) hxy).2 hle).1⟩

/-- Closed form of the updateCentroids loop body: the centroid moves
to the cluster mean exactly when it has assigned points and the mean
shift exceeds the threshold 1. -/
theorem KM.updateCentroid_eq (data : List KM.KPoint) (idx : ℕ)
    (c : KM.Centroid) :
    KM.updateCentroid data idx c =
      if (KM.clusterPts data idx).length ≠ 0 ∧
          1 < KM.meanShift data idx c then
        (⟨(KM.clusterMean data idx).x, (KM.clusterMean data idx).y⟩, true)
      else (c, false) := by
  unfold KM.updateCentroid KM.meanShift
  by_cases hlen : (KM.clusterPts data idx).length ≠ 0
  · rw [if_pos hlen]
    by_cases hdist : 1 < Real.sqrt
        (((KM.clusterMean data idx).x - c.x) ^ 2 +
          ((KM.clusterMean data idx).y - c.y) ^ 2)
    · rw [if_pos hdist, if_pos ⟨hlen, hdist⟩]
    · rw [if_neg hdist, if_neg fun h => hdist h.2]
  · rw [if_neg hlen, if_neg fun h => hlen h.1]

/-- Position lookup into the result of updateCentroids. -/
theorem KM.updateCentroids_getD (data : List KM.KPoint)
    (cs : List KM.Centroid) (i : ℕ) (hi : i < cs.length) :
    (KM.updateCentroids data cs).1.getD i ⟨0, 0⟩ =
      (KM.updateCentroid data i (cs.getD i ⟨0, 0⟩)).1 := by
  unfold KM.updateCentroids
  rw [List.getD_eq_getElem?_getD, List.getElem?_map, List.getElem?_map,
    List.getElem?_enum, List.getElem?_eq_getElem hi]
  simp [List.getD_eq_getElem?_getD, List.getElem?_eq_getElem hi]

/-- The moved flag of updateCentroids is set exactly when some
centroid moved. -/
theorem KM.updateCentroids_moved_iff (data : List KM.KPoint)
    (cs : List KM.Centroid) :
    (KM.updateCentroids data cs).2 = true ↔
      ∃ i, i < cs.length ∧
        (KM.updateCentroid data i (cs.getD i ⟨0, 0⟩)).2 = true := by
  unfold KM.updateCentroids
  simp only [List.any_eq_true, List.mem_map]
  rw [show (∃ r, (∃ ic ∈ cs.enum, KM.updateCentroid data ic.1 ic.2 = r) ∧
      r.2 = true) ↔
    ∃ ic ∈ cs.enum, (KM.updateCentroid data ic.1 ic.2).2 = true by
      constructor
      · rintro ⟨r, ⟨ic, hic, hr⟩, hflag⟩
        exact ⟨ic, hic, hr ▸ hflag⟩
      · rintro ⟨ic, hic, hflag⟩
        exact ⟨_, ⟨ic, hic, rfl⟩, hflag⟩]
  rw [List.exists_mem_enum]
  constructor
  · rintro ⟨i, hi, hp⟩
    refine ⟨i, hi, ?_⟩
    rwa [List.getD_eq_getElem?_getD, List.getElem?_eq_getElem hi]
  · rintro ⟨i, hi, hp⟩
    refine ⟨i, hi, ?_⟩
    rwa [List.getD_eq_getElem?_getD, List.getElem?_eq_getElem hi] at hp

/-- C3 counterexample: a single centroid at (0, 0) whose only assigned
point is (1, 0).  The cluster mean is (1, 0) and the mean shift is
exactly 1, not exceeding the threshold, so updateCentroids keeps the
centroid at (0, 0) even though it has an assigned point; the claim
that every populated centroid is recomputed as the mean of its points
would demand (1, 0). -/
theorem updateCentroids_keeps_subthreshold_mean :
    (KM.updateCentroids [⟨1, 0, 0⟩] [⟨0, 0⟩]).1 = [⟨0, 0⟩] ∧
    KM.clusterPts [⟨1, 0, 0⟩] 0 = [⟨1, 0, 0⟩] ∧
    KM.clusterMean [⟨1, 0, 0⟩] 0 = ⟨1, 0⟩ ∧
    (KM.updateCentroids [⟨1, 0, 0⟩] [⟨0, 0⟩]).1 ≠ [⟨1, 0⟩] := by
  have hfilter : KM.clusterPts [⟨1, 0, 0⟩] 0 = [⟨1, 0, 0⟩] := by
    simp [KM.clusterPts, List.filter]
  have hmean : KM.clusterMean [⟨1, 0, 0⟩] 0 = ⟨1, 0⟩ := by
    simp [KM.clusterMean, hfilter]
  have hupd : (KM.updateCentroids [⟨1, 0, 0⟩] [⟨0, 0⟩]).1 = [⟨0, 0⟩] := by
    unfold KM.updateCentroids KM.updateCentroid
    simp [List.enum, hfilter, hmean]
  refine ⟨hupd, hfilter, hmean, ?_⟩
  rw [hupd]
  intro hc
  injection hc with h1 h2
  have := congrArg KM.Centroid.x h1
  norm_num at this

/-- C3: characterization of the UPDATE step of the k-means state
machine.  Amended from the claim: a centroid with assigned points is
recomputed as their mean only when the mean lies strictly more than
the threshold 1.0 away from the old position; otherwise (including
every populated centroid whose mean shift is at most 1, and every
empty centroid) it keeps its previous position.  The machine
transitions to CONVERGED exactly when no centroid moved, i.e. when
every centroid has no assigned points or a mean shift of at most 1
(not strictly less than 1 as claimed), and otherwise back to ASSIGN. -/
theorem kmeans_update_step_characterization
    (initFn : List KM.KPoint → List KM.Centroid) (s : KM.KMState)
    (hs : s.algoState = .UPDATE) :
    (KM.performNextStep initFn s).centroids =
      (KM.updateCentroids s.data s.centroids).1 ∧
    (∀ i, i < s.centroids.length →
      (KM.performNextStep initFn s).centroids.getD i ⟨0, 0⟩ =
        if (KM.clusterPts s.data i).length ≠ 0 ∧
            1 < KM.meanShift s.data i (s.centroids.getD i ⟨0, 0⟩) then
          ⟨(KM.clusterMean s.data i).x, (KM.clusterMean s.data i).y⟩
        else s.centroids.getD i ⟨0, 0⟩) ∧
    ((KM.performNextStep initFn s).algoState = .CONVERGED ↔
      ∀ i, i < s.centroids.length →
        (KM.clusterPts s.data i).length = 0 ∨
          KM.meanShift s.data i (s.centroids.getD i ⟨0, 0⟩) ≤ 1) ∧
    ((KM.performNextStep initFn s).algoState = .ASSIGN ∨
      (KM.performNextStep initFn s).algoState = .CONVERGED) := by
  have hstep : KM.performNextStep initFn s =
      { s with centroids := (KM.updateCentroids s.data s.centroids).1,
               iteration := s.iteration + 1,
               algoState := if (KM.updateCentroids s.data s.centroids).2
                 then .ASSIGN else .CONVERGED } := by
    unfold KM.performNextStep
    rw [hs]
  refine ⟨by rw [hstep], ?_, ?_, ?_⟩
  · intro i hi
    rw [hstep]
    show (KM.updateCentroids s.data s.centroids).1.getD i ⟨0, 0⟩ = _
    rw [KM.updateCentroids_getD s.data s.centroids i hi,
      KM.updateCentroid_eq]
    by_cases hcond : (KM.clusterPts s.data i).length ≠ 0 ∧
        1 < KM.meanShift s.data i (s.centroids.getD i ⟨0, 0⟩)
    · rw [if_pos hcond, if_pos hcond]
    · rw [if_neg hcond, if_neg hcond]
  · rw [hstep]
    show (if (KM.updateCentroids s.data s.centroids).2
        then KM.AlgoState.ASSIGN else .CONVERGED) = .CONVERGED ↔ _
    constructor
    · intro hconv i hi
      cases hmov : (KM.updateCentroids s.data s.centroids).2 with
      | true => rw [hmov] at hconv; exact absurd hconv (by simp)
      | false =>
        have hnone := (not_iff_not.mpr
          (KM.updateCentroids_moved_iff s.data s.centroids)).mp
          (by rw [hmov]; simp)
        push_neg at hnone
        have hflag := hnone i hi
        rw [KM.updateCentroid_eq] at hflag
        by_cases hcond : (KM.clusterPts s.data i).length ≠ 0 ∧
            1 < KM.meanShift s.data i (s.centroids.getD i ⟨0, 0⟩)
        · rw [if_pos hcond] at hflag
          exact absurd rfl hflag
        · push_neg at hcond
          by_cases hlen : (KM.clusterPts s.data i).length = 0
          · exact Or.inl hlen
          · exact Or.inr (not_lt.mp fun hgt => hlen.elim (by
              have := hcond (fun h => hlen h)
              exact absurd hgt (not_lt.mpr this)))
    · intro hall
      cases hmov : (KM.updateCentroids s.data s.centroids).2 with
      | false => simp
      | true =>
        exfalso
        obtain ⟨i, hi, hflag⟩ :=
          (KM.updateCentroids_moved_iff s.data s.centroids).mp hmov
        rw [KM.updateCentroid_eq] at hflag
        rcases hall i hi with hlen | hle
        · rw [if_neg fun h => h.1 hlen] at hflag
          exact Bool.false_ne_true hflag
        · rw [if_neg fun h => absurd h.2 (not_lt.mpr hle)] at hflag
          exact Bool.false_ne_true hflag
  · rw [hstep]
    show (if (KM.updateCentroids s.data s.centroids).2
        then KM.AlgoState.ASSIGN else .CONVERGED) = .ASSIGN ∨ _
    cases (KM.updateCentroids s.data s.centroids).2 with
    | true => exact Or.inl rfl
    | false => exact Or.inr rfl

/-- C3 witness: the characterization applied to a concrete state in
phase UPDATE (empty data, one centroid). -/
theorem kmeans_update_step_characterization_witness :
    KM.KMState.algoState ⟨[], [⟨0, 0⟩], .UPDATE, 0⟩ = .UPDATE ∧
    ((KM.performNextStep (fun _ => []) ⟨[], [⟨0, 0⟩], .UPDATE, 0⟩).algoState
        = .ASSIGN ∨
      (KM.performNextStep (fun _ => []) ⟨[], [⟨0, 0⟩], .UPDATE, 0⟩).algoState
        = .CONVERGED) :=
  ⟨rfl, (kmeans_update_step_characterization (fun _ => [])
    ⟨[], [⟨0, 0⟩], .UPDATE, 0⟩ rfl).2.2.2⟩

/-- Bounded-iteration lemma for the SMO while loop: the final sweep
count never exceeds maxIter when it starts at or below maxIter. -/
theorem smoLoop_iter_le_aux (data : List SMO.SPoint) (kt : SMO.KernelType)
    (C tol : ℝ) (oracle : ℕ → ℕ) (maxPasses maxIter : ℕ) :
    ∀ n iter s passes t, maxIter - iter ≤ n → iter ≤ maxIter →
      (SMO.smoLoop data kt C tol oracle maxPasses maxIter s passes iter t).2
        ≤ maxIter := by
  intro n
  induction n with
  | zero =>
    intro iter s passes t hn hle
    rw [SMO.smoLoop, dif_neg (by omega :
      ¬(passes < maxPasses ∧ iter < maxIter))]
    exact hle
  | succ n ih =>
    intro iter s passes t hn hle
    rw [SMO.smoLoop]
    by_cases h : passes < maxPasses ∧ iter < maxIter
    · rw [dif_pos h]
      exact ih (iter + 1) _ _ _ (by omega) (by omega)
    · rw [dif_neg h]
      exact hle

/-- Early-stop lemma for the SMO while loop: when every sweep reports
zero changed alphas, the loop performs exactly the sweeps needed to
drive the pass counter from passes to maxPasses. -/
theorem smoLoop_nochange_aux (data : List SMO.SPoint) (kt : SMO.KernelType)
    (C tol : ℝ) (oracle : ℕ → ℕ) (maxPasses maxIter : ℕ)
    (hsw : ∀ s t, (SMO.smoSweep data kt C tol oracle t s).2.1 = 0) :
    ∀ n iter s passes t, maxPasses - passes ≤ n → passes ≤ maxPasses →
      iter + (maxPasses - passes) ≤ maxIter →
      (SMO.smoLoop data kt C tol oracle maxPasses maxIter s passes iter t).2
        = iter + (maxPasses - passes) := by
  intro n
  induction n with
  | zero =>
    intro iter s passes t hn hp hi
    rw [SMO.smoLoop, dif_neg (by omega :
      ¬(passes < maxPasses ∧ iter < maxIter))]
    omega
  | succ n ih =>
    intro iter s passes t hn hp hi
    rw [SMO.smoLoop]
    by_cases h : passes < maxPasses ∧ iter < maxIter
    · obtain ⟨h1, h2⟩ := h
      rw [dif_pos ⟨h1, h2⟩]
      have hres := hsw s t
      show (SMO.smoLoop data kt C tol oracle maxPasses maxIter
        (SMO.smoSweep data kt C tol oracle t s).1
        (if (SMO.smoSweep data kt C tol oracle t s).2.1 = 0
          then passes + 1 else 0)
        (iter + 1) (SMO.smoSweep data kt C tol oracle t s).2.2).2 = _
      rw [if_pos hres]
      have hrec := ih (iter + 1)
        (SMO.smoSweep data kt C tol oracle t s).1 (passes + 1)
        (SMO.smoSweep data kt C tol oracle t s).2.2
        (by omega) (by omega) (by omega)
      rw [hrec]
      omega
    · rw [dif_neg h]
      omega

/-- C7: the simplified SMO training loop always terminates: it
performs at most 2000 sweeps regardless of the pass counter, and when
every sweep leaves all alphas unchanged (numChangedAlphas = 0) from
the start, it stops after exactly maxPasses = 10 sweeps. -/
theorem trainSVM_terminates_within_bounds (data : List SMO.SPoint)
    (kt : SMO.KernelType) (C : ℝ) (oracle : ℕ → ℕ) :
    (SMO.trainSVM data kt C oracle).2 ≤ 2000 ∧
    ((∀ s t, (SMO.smoSweep data kt C (1e-4) oracle t s).2.1 = 0) →
      (SMO.trainSVM data kt C oracle).2 = 10) := by
  constructor
  · exact smoLoop_iter_le_aux data kt C (1e-4) oracle 10 2000 2000 0 _ 0 0
      (by omega) (by omega)
  · intro hsw
    have h := smoLoop_nochange_aux data kt C (1e-4) oracle 10 2000 hsw
      10 0 ⟨List.replicate data.length 0, 0⟩ 0 0
      (by omega) (by omega) (by omega)
    simpa using h

/-- C7 witness: on the empty dataset every sweep trivially changes no
alpha, so training performs exactly 10 sweeps, within the 2000 cap. -/
theorem trainSVM_terminates_within_bounds_witness :
    (SMO.trainSVM [] .linear 1 (fun _ => 0)).2 ≤ 2000 ∧
    (SMO.trainSVM [] .linear 1 (fun _ => 0)).2 = 10 :=
  ⟨(trainSVM_terminates_within_bounds [] .linear 1 (fun _ => 0)).1,
   (trainSVM_terminates_within_bounds [] .linear 1 (fun _ => 0)).2
     (by
       intro s t
       simp [SMO.smoSweep])⟩


/-- Reading any alpha out of a boxed alpha vector stays in the box
(out-of-range reads default to 0). -/
theorem BoxInv_getD (C : ℝ) (l : List ℝ) (h : SMO.BoxInv C l) (hC : 0 ≤ C)
    (i : ℕ) : 0 ≤ l.getD i 0 ∧ l.getD i 0 ≤ C := by
  by_cases hi : i < l.length
  · rw [List.getD_eq_getElem?_getD, List.getElem?_eq_getElem hi]
    exact h _ (List.getElem_mem hi)
  · rw [List.getD_eq_getElem?_getD, List.getElem?_eq_none (by omega)]
    exact ⟨le_refl 0, hC⟩

/-- Writing a boxed value into a boxed alpha vector keeps it boxed. -/
theorem BoxInv_set (C : ℝ) (l : List ℝ) (h : SMO.BoxInv C l) (n : ℕ) (v : ℝ)
    (hv : 0 ≤ v ∧ v ≤ C) : SMO.BoxInv C (l.set n v) := by
  intro a ha
  rcases List.mem_or_eq_of_mem_set ha with hmem | rfl
  · exact h a hmem
  · exact hv

/-- Any indexed read of a plus-minus-one labeled dataset yields a
plus-minus-one label (the default point carries label 1). -/
theorem label_pm (data : List SMO.SPoint)
    (hlab : ∀ p ∈ data, p.label = 1 ∨ p.label = -1) (i : ℕ) :
    (data.getD i SMO.defaultSPoint).label = 1 ∨
      (data.getD i SMO.defaultSPoint).label = -1 := by
  by_cases hi : i < data.length
  · rw [List.getD_eq_getElem?_getD, List.getElem?_eq_getElem hi]
    exact hlab _ (List.getElem_mem hi)
  · rw [List.getD_eq_getElem?_getD, List.getElem?_eq_none (by omega)]
    exact Or.inl rfl

/-- One SMO pair update keeps every alpha in the box [0, C]: alpha_j
is clipped into [L, H] which lies inside [0, C], and the compensating
alpha_i update lands in [0, C] by the choice of L and H. -/
theorem smoInner_box (data : List SMO.SPoint) (kt : SMO.KernelType)
    (C tol : ℝ) (hC : 0 ≤ C)
    (hlab : ∀ p ∈ data, p.label = 1 ∨ p.label = -1)
    (s : SMO.SVMState) (i j : ℕ) (h : SMO.BoxInv C s.alphas) :
    SMO.BoxInv C (SMO.smoInner data kt C tol s i j).1.alphas := by
  have hai := BoxInv_getD C s.alphas h hC i
  have haj := BoxInv_getD C s.alphas h hC j
  have hyi := label_pm data hlab i
  have hyj := label_pm data hlab j
  unfold SMO.smoInner
  dsimp only
  set pi := data.getD i SMO.defaultSPoint with hpi
  set pj := data.getD j SMO.defaultSPoint with hpj
  set ai := s.alphas.getD i 0 with hai_def
  set aj := s.alphas.getD j 0 with haj_def
  set Ei := SMO.decisionFunction data kt s ⟨pi.x, pi.y⟩ - pi.label with hEi
  set Ej := SMO.decisionFunction data kt s ⟨pj.x, pj.y⟩ - pj.label with hEj
  set L := if pi.label ≠ pj.label then max 0 (aj - ai)
    else max 0 (ai + aj - C) with hL
  set H := if pi.label ≠ pj.label then min C (C + aj - ai)
    else min C (ai + aj) with hH
  set eta := 2 * SMO.kernel kt ⟨pi.x, pi.y⟩ ⟨pj.x, pj.y⟩
    - SMO.kernel kt ⟨pi.x, pi.y⟩ ⟨pi.x, pi.y⟩
    - SMO.kernel kt ⟨pj.x, pj.y⟩ ⟨pj.x, pj.y⟩ with heta_def
  set ajNew := min H (max L (aj - pj.label * (Ei - Ej) / eta)) with hajNew
  have hL0 : 0 ≤ L := by
    rw [hL]
    split <;> exact le_max_left 0 _
  have hHC : H ≤ C := by
    rw [hH]
    split <;> exact min_le_left C _
  have hLH : L ≤ H := by
    rw [hL, hH]
    split
    · exact max_le (le_min hC (by linarith [hai.2, haj.1]))
        (le_min (by linarith [hai.1, haj.2]) (by linarith [hai.1]))
    · exact max_le (le_min hC (by linarith [hai.1, haj.1]))
        (le_min (by linarith [hai.2, haj.2]) (by linarith [hai.1, haj.1]))
  have hajNew_L : L ≤ ajNew := by
    rw [hajNew]
    calc L = min H L := (min_eq_right hLH).symm
      _ ≤ min H (max L (aj - pj.label * (Ei - Ej) / eta)) :=
        min_le_min (le_refl H) (le_max_left L _)
  have hajNew_H : ajNew ≤ H := min_le_left _ _
  have hbox_j : 0 ≤ ajNew ∧ ajNew ≤ C :=
    ⟨le_trans hL0 hajNew_L, le_trans hajNew_H hHC⟩
  split
  case isFalse => exact h
  case isTrue hKKT =>
    split
    case isTrue => exact h
    case isFalse hLHne =>
      split
      case isTrue => exact h
      case isFalse heta =>
        split
        case isTrue => exact BoxInv_set C s.alphas h j ajNew hbox_j
        case isFalse hchange =>
          refine BoxInv_set C (s.alphas.set j ajNew)
            (BoxInv_set C s.alphas h j ajNew hbox_j) i _ ?_
          by_cases hll : pi.label ≠ pj.label
          · have hprod : pi.label * pj.label = -1 := by
              rcases hyi with h1 | h1 <;> rcases hyj with h2 | h2 <;>
                rw [h1, h2] at hll ⊢ <;> norm_num at hll ⊢
            rw [hprod]
            rw [hL, if_pos hll] at hajNew_L
            rw [hH, if_pos hll] at hajNew_H
            constructor
            · have := le_trans (le_max_right 0 (aj - ai)) hajNew_L
              linarith
            · have := le_trans hajNew_H (min_le_right C (C + aj - ai))
              linarith
          · have hprod : pi.label * pj.label = 1 := by
              push_neg at hll
              rcases hyi with h1 | h1 <;> rw [h1] at hll ⊢ <;>
                rw [← hll] <;> norm_num
            rw [hprod]
            rw [hL, if_neg hll] at hajNew_L
            rw [hH, if_neg hll] at hajNew_H
            constructor
            · have := le_trans hajNew_H (min_le_right C (ai + aj))
              linarith
            · have := le_trans (le_max_right 0 (ai + aj - C)) hajNew_L
              linarith

/-- A full SMO sweep keeps every alpha in the box. -/
theorem smoSweep_box (data : List SMO.SPoint) (kt : SMO.KernelType)
    (C tol : ℝ) (oracle : ℕ → ℕ) (hC : 0 ≤ C)
    (hlab : ∀ p ∈ data, p.label = 1 ∨ p.label = -1)
    (t : ℕ) (s : SMO.SVMState) (h : SMO.BoxInv C s.alphas) :
    SMO.BoxInv C (SMO.smoSweep data kt C tol oracle t s).1.alphas := by
  unfold SMO.smoSweep
  suffices haux : ∀ (l : List ℕ) (acc : SMO.SVMState × ℕ × ℕ),
      SMO.BoxInv C acc.1.alphas →
      SMO.BoxInv C ((l.foldl (fun acc i =>
        let j0 := oracle acc.2.2
        let j := if i ≤ j0 then j0 + 1 else j0
        let res := SMO.smoInner data kt C tol acc.1 i j
        (res.1, (if res.2 then acc.2.1 + 1 else acc.2.1), acc.2.2 + 1))
        acc).1.alphas) by
    exact haux (List.range data.length) (s, 0, t) h
  intro l
  induction l with
  | nil =>
    intro acc hacc
    exact hacc
  | cons hd tl ih =>
    intro acc hacc
    rw [List.foldl_cons]
    exact ih _ (smoInner_box data kt C tol hC hlab acc.1 hd _ hacc)

/-- The SMO while loop keeps every alpha in the box. -/
theorem smoLoop_box (data : List SMO.SPoint) (kt : SMO.KernelType)
    (C tol : ℝ) (oracle : ℕ → ℕ) (maxPasses maxIter : ℕ) (hC : 0 ≤ C)
    (hlab : ∀ p ∈ data, p.label = 1 ∨ p.label = -1) :
    ∀ n iter s passes t, maxIter - iter ≤ n → SMO.BoxInv C s.alphas →
      SMO.BoxInv C (SMO.smoLoop data kt C tol oracle maxPasses maxIter
        s passes iter t).1.alphas := by
  intro n
  induction n with
  | zero =>
    intro iter s passes t hn hbox
    rw [SMO.smoLoop]
    by_cases h : passes < maxPasses ∧ iter < maxIter
    · omega
    · rw [dif_neg h]
      exact hbox
  | succ n ih =>
    intro iter s passes t hn hbox
    rw [SMO.smoLoop]
    by_cases h : passes < maxPasses ∧ iter < maxIter
    · rw [dif_pos h]
      exact ih (iter + 1) _ _ _ (by omega)
        (smoSweep_box data kt C tol oracle hC hlab t s hbox)
    · rw [dif_neg h]
      exact hbox

/-- C10: throughout and after SMO training every Lagrange multiplier
stays in the box [0, C]: every single pair update preserves the box
invariant, and the alphas returned by trainSVM, which start as all
zeroes, all lie in [0, C]. -/
theorem trainSVM_alphas_in_box (data : List SMO.SPoint)
    (kt : SMO.KernelType) (C : ℝ) (oracle : ℕ → ℕ) (hC : 0 ≤ C)
    (hlab : ∀ p ∈ data, p.label = 1 ∨ p.label = -1) :
    (∀ s i j, SMO.BoxInv C s.alphas →
      SMO.BoxInv C (SMO.smoInner data kt C (1e-4) s i j).1.alphas) ∧
    SMO.BoxInv C (SMO.trainSVM data kt C oracle).1.alphas := by
  constructor
  · intro s i j hbox
    exact smoInner_box data kt C (1e-4) hC hlab s i j hbox
  · unfold SMO.trainSVM
    refine smoLoop_box data kt C (1e-4) oracle 10 2000 hC hlab 2000 0 _ 0 0
      (by omega) ?_
    intro a ha
    rw [List.eq_of_mem_replicate ha]
    exact ⟨le_refl 0, hC⟩

/-- C10 witness: instantiation on a one-point dataset with label 1 and
C = 1, discharging both hypotheses. -/
theorem trainSVM_alphas_in_box_witness :
    (0 : ℝ) ≤ 1 ∧
    (∀ p ∈ ([⟨0, 0, 1⟩] : List SMO.SPoint), p.label = 1 ∨ p.label = -1) ∧
    SMO.BoxInv 1 (SMO.trainSVM [⟨0, 0, 1⟩] .linear 1 (fun _ => 0)).1.alphas :=
  ⟨by norm_num, by simp,
   (trainSVM_alphas_in_box [⟨0, 0, 1⟩] .linear 1 (fun _ => 0)
     (by norm_num) (by simp)).2⟩

theorem scanSplits_nil (crit : DT.Criterion) (data : List DT.DPt)
    (f : DT.Feature) (acc : EReal × Option DT.Split) :
    DT.scanSplits crit data f [] acc = acc := by
  rw [DT.scanSplits]
  intro p1 p2 rest h
  exact List.noConfusion h

theorem scanSplits_single (crit : DT.Criterion) (data : List DT.DPt)
    (f : DT.Feature) (p : DT.DPt) (acc : EReal × Option DT.Split) :
    DT.scanSplits crit data f [p] acc = acc := by
  rw [DT.scanSplits]
  intro p1 p2 rest h
  injection h with h1 h2
  exact List.noConfusion h2

theorem scanSplits_cons (crit : DT.Criterion) (data : List DT.DPt)
    (f : DT.Feature) (p1 p2 : DT.DPt) (rest : List DT.DPt)
    (acc : EReal × Option DT.Split) :
    DT.scanSplits crit data f (p1 :: p2 :: rest) acc =
      DT.scanSplits crit data f (p2 :: rest)
        (if p1.get f = p2.get f then acc
         else
           let splitValue := (p1.get f + p2.get f) / 2
           let leftGroup := data.filter fun p => p.get f ≤ splitValue
           let rightGroup := data.filter fun p => ¬(p.get f ≤ splitValue)
           let impurity := DT.calculateCost crit leftGroup rightGroup
           if (impurity : EReal) < acc.1 then
             ((impurity : EReal), some ⟨f, splitValue⟩)
           else acc) := by
  rw [DT.scanSplits]

theorem scanSplits_inv (crit : DT.Criterion) (data : List DT.DPt)
    (f : DT.Feature) :
    ∀ (sorted : List DT.DPt) (acc : EReal × Option DT.Split),
      (∀ x ∈ sorted, x ∈ data) →
      List.Sorted (fun a b : DT.DPt => a.get f ≤ b.get f) sorted →
      (∀ s, acc.2 = some s → DT.GoodSplit data s) →
      ∀ s, (DT.scanSplits crit data f sorted acc).2 = some s →
        DT.GoodSplit data s := by
  intro sorted
  induction sorted with
  | nil =>
    intro acc hsub hsort hacc s hres
    rw [scanSplits_nil] at hres
    exact hacc s hres
  | cons p1 tl ih =>
    intro acc hsub hsort hacc s hres
    cases tl with
    | nil =>
      rw [scanSplits_single] at hres
      exact hacc s hres
    | cons p2 rest =>
      rw [scanSplits_cons] at hres
      refine ih _ (fun x hx => hsub x (List.mem_cons_of_mem p1 hx))
        (List.sorted_cons.mp hsort).2 ?_ s hres
      intro s2 hs2
      by_cases heq : p1.get f = p2.get f
      · rw [if_pos heq] at hs2
        exact hacc s2 hs2
      · rw [if_neg heq] at hs2
        dsimp only at hs2
        by_cases hlt : ((DT.calculateCost crit
            (data.filter fun p => p.get f ≤ (p1.get f + p2.get f) / 2)
            (data.filter fun p => ¬(p.get f ≤ (p1.get f + p2.get f) / 2))
            : ℝ) : EReal) < acc.1
        · rw [if_pos hlt] at hs2
          have hs2 : s2 = ⟨f, (p1.get f + p2.get f) / 2⟩ := by
            injection hs2.symm
          subst hs2
          have hp1 : p1 ∈ data := hsub p1 (List.mem_cons_self _ _)
          have hp2 : p2 ∈ data := hsub p2
            (List.mem_cons_of_mem p1 (List.mem_cons_self _ _))
          have hle : p1.get f ≤ p2.get f :=
            (List.sorted_cons.mp hsort).1 p2 (List.mem_cons_self _ _)
          have hstrict : p1.get f < p2.get f := lt_of_le_of_ne hle heq
          exact ⟨⟨p1, hp1, by dsimp only; linarith⟩,
            ⟨p2, hp2, by dsimp only; push_neg; linarith⟩⟩
        · rw [if_neg hlt] at hs2
          exact hacc s2 hs2

theorem sortByFeature_mem (f : DT.Feature) (data : List DT.DPt)
    (x : DT.DPt) (hx : x ∈ DT.sortByFeature f data) : x ∈ data :=
  (List.mergeSort_perm data _).subset hx

theorem sortByFeature_sorted (f : DT.Feature) (data : List DT.DPt) :
    List.Sorted (fun a b : DT.DPt => a.get f ≤ b.get f)
      (DT.sortByFeature f data) := by
  have h := @List.sorted_mergeSort (DT.DPt)
    (fun a b : DT.DPt => decide (a.get f ≤ b.get f))
    (fun a b c hab hbc => by
      simp only [decide_eq_true_iff] at hab hbc ⊢
      exact le_trans hab hbc)
    (fun a b => by
      simp only [Bool.or_eq_true, decide_eq_true_iff]
      exact le_total (a.get f) (b.get f))
    data
  exact h.imp fun hab => by simpa using hab

theorem findBestSplit_good (crit : DT.Criterion) (data : List DT.DPt)
    (s : DT.Split) (h : DT.findBestSplit crit data = some s) :
    DT.GoodSplit data s := by
  unfold DT.findBestSplit at h
  refine scanSplits_inv crit data .y _ _
    (fun x hx => sortByFeature_mem .y data x hx)
    (sortByFeature_sorted .y data) ?_ s h
  intro s2 hs2
  exact scanSplits_inv crit data .x _ _
    (fun x hx => sortByFeature_mem .x data x hx)
    (sortByFeature_sorted .x data)
    (fun s3 hs3 => by simp at hs3) s2 hs2

theorem buildTree_justified (crit : DT.Criterion) (maxDepth : ℕ) :
    ∀ n data depth, maxDepth - depth ≤ n →
      DT.TreeJustified crit maxDepth
        (DT.buildTree crit maxDepth data depth) data depth := by
  intro n
  induction n with
  | zero =>
    intro data depth hn
    rw [DT.buildTree]
    rw [dif_pos (Or.inl (by omega : maxDepth ≤ depth))]
    exact ⟨rfl, rfl, Or.inr (Or.inr (Or.inl (by omega)))⟩
  | succ n ih =>
    intro data depth hn
    rw [DT.buildTree]
    by_cases hstop : maxDepth ≤ depth ∨
        (data.filter fun p => p.label = DT.DTLabel.A).length = 0 ∨
        (data.filter fun p => ¬(p.label = DT.DTLabel.A)).length = 0 ∨
        data.length < 2
    · rw [dif_pos hstop]
      refine ⟨rfl, rfl, ?_⟩
      rcases hstop with h1 | h1 | h1 | h1
      · exact Or.inr (Or.inr (Or.inl h1))
      · exact Or.inl h1
      · exact Or.inr (Or.inl h1)
      · exact Or.inr (Or.inr (Or.inr (Or.inl h1)))
    · rw [dif_neg hstop]
      cases hsplit : DT.findBestSplit crit data with
      | none =>
        exact ⟨rfl, rfl, Or.inr (Or.inr (Or.inr (Or.inr hsplit)))⟩
      | some split =>
        have hgood := findBestSplit_good crit data split hsplit
        dsimp only
        by_cases hempty :
            (data.filter fun p => p.get split.feature ≤ split.value).length
              = 0 ∨
            (data.filter fun p =>
              ¬(p.get split.feature ≤ split.value)).length = 0
        · exfalso
          obtain ⟨⟨p, hp, hple⟩, ⟨q, hq, hqgt⟩⟩ := hgood
          rcases hempty with he | he
          · rw [List.length_eq_zero] at he
            exact (List.filter_eq_nil_iff.mp he p hp) (by simpa using hple)
          · rw [List.length_eq_zero] at he
            exact (List.filter_eq_nil_iff.mp he q hq) (by simpa using hqgt)
        · rw [if_neg hempty]
          exact ⟨ih _ (depth + 1) (by omega), ih _ (depth + 1) (by omega)⟩

/-- C4: the tree built by buildTree is justified with respect to the
very data it was built from: tracking the actual dataset down the
recorded splits, every leaf carries exactly the class counts of its
data and is either pure (one class count is zero), or forced by
reaching maxDepth, or forced by holding fewer than 2 points, or forced
because findBestSplit found no valid split on that data.  The
predicate has no disjunct for the "best split produces an empty
partition" stop of the source, so that stop never emits a leaf: over
the reals the midpoint of two distinct consecutive sorted values lies
strictly between them, so both partitions of a returned split are
nonempty, and in particular it never produces an impure unforced
leaf. -/
theorem buildTree_leaf_purity (crit : DT.Criterion) (maxDepth : ℕ)
    (data : List DT.DPt) (depth : ℕ) :
    DT.TreeJustified crit maxDepth
      (DT.buildTree crit maxDepth data depth) data depth :=
  buildTree_justified crit maxDepth (maxDepth - depth) data depth (le_refl _)

/-- The squared euclideanDistance is the sum of coordinate squares. -/
theorem euclideanDistance_sq (p q : Pt) :
    KM.euclideanDistance p q ^ 2 = (q.x - p.x) ^ 2 + (q.y - p.y) ^ 2 :=
  Real.sq_sqrt (by positivity)

/-- euclideanDistance is nonnegative. -/
theorem euclideanDistance_nonneg (p q : Pt) :
    0 ≤ KM.euclideanDistance p q :=
  Real.sqrt_nonneg _

/-- Expansion of a sum of squared deviations about an arbitrary
center. -/
theorem sum_sq_dev_expand (l : List ℝ) (c : ℝ) :
    (l.map fun t => (t - c) ^ 2).sum =
      (l.map fun t => t ^ 2).sum - 2 * c * l.sum + l.length * c ^ 2 := by
  induction l with
  | nil => simp
  | cons hd tl ih =>
    simp only [List.map_cons, List.sum_cons, List.length_cons, ih]
    push_cast
    ring

/-- The mean minimizes the sum of squared deviations of a nonempty
list of reals. -/
theorem sum_sq_dev_mean_le (l : List ℝ) (c : ℝ) (hne : l ≠ []) :
    (l.map fun t => (t - l.sum / l.length) ^ 2).sum ≤
      (l.map fun t => (t - c) ^ 2).sum := by
  have hn : (0 : ℝ) < l.length := by
    have := List.length_pos.mpr hne
    exact_mod_cast this
  set mu := l.sum / (l.length : ℝ) with hmu
  have hs : (l.length : ℝ) * mu = l.sum := by
    rw [hmu]
    field_simp
  rw [sum_sq_dev_expand, sum_sq_dev_expand]
  have key : (l.map fun t => t ^ 2).sum - 2 * c * l.sum
        + (l.length : ℝ) * c ^ 2
      - ((l.map fun t => t ^ 2).sum - 2 * mu * l.sum
        + (l.length : ℝ) * mu ^ 2) = (l.length : ℝ) * (c - mu) ^ 2 := by
    have hsum : l.sum = (l.length : ℝ) * mu := hs.symm
    rw [hsum]
    ring
  linarith [mul_nonneg hn.le (sq_nonneg (c - mu)), key]

/-- The coordinatewise mean of a nonempty cluster minimizes its sum of
squared 2D deviations. -/
theorem cluster_sum_sq_mean_le (pts : List KM.KPoint) (cx cy : ℝ)
    (hne : pts ≠ []) :
    (pts.map fun p =>
      (p.x - (pts.map fun q => q.x).sum / pts.length) ^ 2 +
      (p.y - (pts.map fun q => q.y).sum / pts.length) ^ 2).sum ≤
    (pts.map fun p => (p.x - cx) ^ 2 + (p.y - cy) ^ 2).sum := by
  rw [List.sum_map_add, List.sum_map_add]
  have hx : (pts.map fun p =>
      (p.x - (pts.map fun q => q.x).sum / pts.length) ^ 2).sum ≤
      (pts.map fun p => (p.x - cx) ^ 2).sum := by
    have hmm := sum_sq_dev_mean_le (pts.map fun q => q.x) cx
      (by simpa using hne)
    rw [List.map_map, List.map_map] at hmm
    simpa using hmm
  have hy : (pts.map fun p =>
      (p.y - (pts.map fun q => q.y).sum / pts.length) ^ 2).sum ≤
      (pts.map fun p => (p.y - cy) ^ 2).sum := by
    have hmm := sum_sq_dev_mean_le (pts.map fun q => q.y) cy
      (by simpa using hne)
    rw [List.map_map, List.map_map] at hmm
    simpa using hmm
  linarith

theorem assignPoint_spec (cs : List KM.Centroid) (p : KM.KPoint)
    (hne : cs ≠ []) :
    0 ≤ KM.assignPoint cs p ∧
    (KM.assignPoint cs p).toNat < cs.length ∧
    ∀ j, j < cs.length →
      KM.euclideanDistance ⟨p.x, p.y⟩
        ⟨(cs.getD (KM.assignPoint cs p).toNat ⟨0, 0⟩).x,
         (cs.getD (KM.assignPoint cs p).toNat ⟨0, 0⟩).y⟩ ≤
      KM.euclideanDistance ⟨p.x, p.y⟩
        ⟨(cs.getD j ⟨0, 0⟩).x, (cs.getD j ⟨0, 0⟩).y⟩ := by
  set dist : KM.Centroid → ℝ := fun c =>
    KM.euclideanDistance ⟨p.x, p.y⟩ ⟨c.x, c.y⟩ with hdist
  set step : (EReal × ℤ) → (ℕ × KM.Centroid) → (EReal × ℤ) := fun acc ic =>
    if ((dist ic.2 : ℝ) : EReal) < acc.1
    then (((dist ic.2 : ℝ) : EReal), (ic.1 : ℤ)) else acc with hstep
  set P : EReal × ℤ → Prop := fun acc =>
    acc.1 = ⊤ ∨ ∃ k, k < cs.length ∧
      acc.1 = ((dist (cs.getD k ⟨0, 0⟩) : ℝ) : EReal) ∧ acc.2 = (k : ℤ)
    with hP
  have fold_spec : ∀ (l : List (ℕ × KM.Centroid)) (acc : EReal × ℤ),
      (∀ ic ∈ l, ic.1 < cs.length ∧ cs.getD ic.1 ⟨0, 0⟩ = ic.2) →
      P acc →
      P (l.foldl step acc) ∧ (l.foldl step acc).1 ≤ acc.1 ∧
        ∀ ic ∈ l, (l.foldl step acc).1 ≤ ((dist ic.2 : ℝ) : EReal) := by
    intro l
    induction l with
    | nil =>
      intro acc hl hacc
      exact ⟨hacc, le_refl _, fun ic hic => absurd hic (by simp)⟩
    | cons hd tl ih =>
      intro acc hl hacc
      rw [List.foldl_cons]
      have hhd := hl hd (List.mem_cons_self _ _)
      have hstep_P : P (step acc hd) := by
        rw [hstep]
        dsimp only
        split
        · exact Or.inr ⟨hd.1, hhd.1, by rw [hhd.2], rfl⟩
        · exact hacc
      have hstep_le : (step acc hd).1 ≤ acc.1 := by
        rw [hstep]
        dsimp only
        split
        case isTrue h => exact le_of_lt h
        case isFalse h => exact le_refl _
      have hstep_hd : (step acc hd).1 ≤ ((dist hd.2 : ℝ) : EReal) := by
        rw [hstep]
        dsimp only
        split
        case isTrue h => exact le_refl _
        case isFalse h => exact not_lt.mp h
      obtain ⟨hP2, hle2, hall2⟩ := ih (step acc hd)
        (fun ic hic => hl ic (List.mem_cons_of_mem hd hic)) hstep_P
      refine ⟨hP2, le_trans hle2 hstep_le, ?_⟩
      intro ic hic
      rcases List.mem_cons.mp hic with rfl | hmem
      · exact le_trans hle2 hstep_hd
      · exact hall2 ic hmem
  have henum : ∀ ic ∈ cs.enum, ic.1 < cs.length ∧ cs.getD ic.1 ⟨0, 0⟩ = ic.2 := by
    rw [List.forall_mem_enum]
    intro i h
    refine ⟨h, ?_⟩
    rw [List.getD_eq_getElem?_getD, List.getElem?_eq_getElem h]
    rfl
  have hinit : P ((⊤ : EReal), (-1 : ℤ)) := Or.inl rfl
  obtain ⟨hPf, hlef, hallf⟩ := fold_spec cs.enum (⊤, -1) henum hinit
  have hassign : KM.assignPoint cs p = (cs.enum.foldl step (⊤, -1)).2 := by
    rw [KM.assignPoint]
  obtain ⟨c0, cs2, rfl⟩ : ∃ c0 cs2, cs = c0 :: cs2 := by
    cases cs with
    | nil => exact absurd rfl hne
    | cons c0 cs2 => exact ⟨c0, cs2, rfl⟩
  have hmem0 : ((0 : ℕ), c0) ∈ (c0 :: cs2).enum := by
    have : (c0 :: cs2).enum = (0, c0) :: ((c0 :: cs2).enum.tail) := by
      simp [List.enum_cons]
    rw [this]
    exact List.mem_cons_self _ _
  have hlt_top : ((c0 :: cs2).enum.foldl step (⊤, -1)).1 < ⊤ :=
    lt_of_le_of_lt (hallf _ hmem0) (EReal.coe_lt_top _)
  rcases hPf with htop | ⟨k, hk, hfst, hsnd⟩
  · rw [htop] at hlt_top
    exact absurd hlt_top (lt_irrefl _)
  · rw [hassign, hsnd]
    refine ⟨by exact_mod_cast Nat.zero_le k, by simpa using hk, ?_⟩
    intro j hj
    have hmemj : ((j : ℕ), (c0 :: cs2).getD j ⟨0, 0⟩) ∈ (c0 :: cs2).enum := by
      rw [List.mem_iff_getElem]
      refine ⟨j, by simpa using hj, ?_⟩
      rw [List.getElem_enum, List.getD_eq_getElem?_getD,
        List.getElem?_eq_getElem hj]
      rfl
    have := hallf _ hmemj
    rw [hfst] at this
    have hco : dist ((c0 :: cs2).getD k ⟨0, 0⟩) ≤
        dist ((c0 :: cs2).getD j ⟨0, 0⟩) := by
      exact_mod_cast this
    simpa using hco

theorem assignClusters_valid (cs : List KM.Centroid) (data : List KM.KPoint)
    (hne : cs ≠ []) :
    ∀ q ∈ KM.assignClusters cs data,
      0 ≤ q.clusterIndex ∧ q.clusterIndex.toNat < cs.length := by
  intro q hq
  obtain ⟨p, hp, rfl⟩ := List.mem_map.mp hq
  obtain ⟨h1, h2, h3⟩ := assignPoint_spec cs p hne
  exact ⟨h1, h2⟩

theorem wcss_assign_le (cs : List KM.Centroid) (data : List KM.KPoint)
    (hne : cs ≠ [])
    (hvalid : ∀ p ∈ data, p.clusterIndex.toNat < cs.length) :
    KM.wcss (KM.assignClusters cs data) cs ≤ KM.wcss data cs := by
  unfold KM.wcss KM.assignClusters
  rw [List.map_map]
  refine List.sum_le_sum ?_
  intro p hp
  obtain ⟨h1, h2, h3⟩ := assignPoint_spec cs p hne
  simp only [Function.comp]
  rw [if_pos h2, if_pos (hvalid p hp)]
  exact pow_le_pow_left (Real.sqrt_nonneg _)
    (h3 p.clusterIndex.toNat (hvalid p hp)) 2

theorem wcss_eq_sum_fibers (data : List KM.KPoint) (cs2 : List KM.Centroid)
    (hvalid : ∀ p ∈ data,
      0 ≤ p.clusterIndex ∧ p.clusterIndex.toNat < cs2.length) :
    KM.wcss data cs2 = ∑ j ∈ Finset.range cs2.length,
      ((KM.clusterPts data j).map fun p =>
        KM.euclideanDistance ⟨p.x, p.y⟩
          ⟨(cs2.getD j ⟨0, 0⟩).x, (cs2.getD j ⟨0, 0⟩).y⟩ ^ 2).sum := by
  induction data with
  | nil =>
    simp [KM.wcss, KM.clusterPts]
  | cons p rest ih =>
    have hp := hvalid p (List.mem_cons_self _ _)
    have hrest : ∀ q ∈ rest,
        0 ≤ q.clusterIndex ∧ q.clusterIndex.toNat < cs2.length :=
      fun q hq => hvalid q (List.mem_cons_of_mem p hq)
    have hfilter : ∀ j : ℕ, KM.clusterPts (p :: rest) j =
        if p.clusterIndex = (j : ℤ) then p :: KM.clusterPts rest j
        else KM.clusterPts rest j := by
      intro j
      unfold KM.clusterPts
      by_cases hj : p.clusterIndex = (j : ℤ)
      · rw [if_pos hj, List.filter_cons_of_pos (by simpa using hj)]
      · rw [if_neg hj, List.filter_cons_of_neg (by simpa using hj)]
    have hcond : ∀ j : ℕ, (p.clusterIndex = (j : ℤ)) ↔
        (p.clusterIndex.toNat = j) := by
      intro j
      omega
    calc KM.wcss (p :: rest) cs2
        = (if p.clusterIndex.toNat < cs2.length then
            KM.euclideanDistance ⟨p.x, p.y⟩
              ⟨(cs2.getD p.clusterIndex.toNat ⟨0, 0⟩).x,
               (cs2.getD p.clusterIndex.toNat ⟨0, 0⟩).y⟩ ^ 2 else 0)
          + KM.wcss rest cs2 := by
          unfold KM.wcss
          rw [List.map_cons, List.sum_cons]
      _ = KM.euclideanDistance ⟨p.x, p.y⟩
            ⟨(cs2.getD p.clusterIndex.toNat ⟨0, 0⟩).x,
             (cs2.getD p.clusterIndex.toNat ⟨0, 0⟩).y⟩ ^ 2
          + ∑ j ∈ Finset.range cs2.length,
            ((KM.clusterPts rest j).map fun q =>
              KM.euclideanDistance ⟨q.x, q.y⟩
                ⟨(cs2.getD j ⟨0, 0⟩).x, (cs2.getD j ⟨0, 0⟩).y⟩ ^ 2).sum := by
          rw [if_pos hp.2, ih hrest]
      _ = ∑ j ∈ Finset.range cs2.length,
            ((KM.clusterPts (p :: rest) j).map fun q =>
              KM.euclideanDistance ⟨q.x, q.y⟩
                ⟨(cs2.getD j ⟨0, 0⟩).x, (cs2.getD j ⟨0, 0⟩).y⟩ ^ 2).sum := by
          have hsplit : ∀ j ∈ Finset.range cs2.length,
              ((KM.clusterPts (p :: rest) j).map fun q =>
                KM.euclideanDistance ⟨q.x, q.y⟩
                  ⟨(cs2.getD j ⟨0, 0⟩).x, (cs2.getD j ⟨0, 0⟩).y⟩ ^ 2).sum =
              ((KM.clusterPts rest j).map fun q =>
                KM.euclideanDistance ⟨q.x, q.y⟩
                  ⟨(cs2.getD j ⟨0, 0⟩).x, (cs2.getD j ⟨0, 0⟩).y⟩ ^ 2).sum +
              (if p.clusterIndex.toNat = j then
                KM.euclideanDistance ⟨p.x, p.y⟩
                  ⟨(cs2.getD j ⟨0, 0⟩).x, (cs2.getD j ⟨0, 0⟩).y⟩ ^ 2
               else 0) := by
            intro j hj
            rw [hfilter j]
            by_cases hc : p.clusterIndex = (j : ℤ)
            · rw [if_pos hc, if_pos ((hcond j).mp hc), List.map_cons,
                List.sum_cons]
              ring
            · rw [if_neg hc, if_neg (fun hcc => hc ((hcond j).mpr hcc))]
              ring
          rw [Finset.sum_congr rfl hsplit, Finset.sum_add_distrib,
            Finset.sum_ite_eq (Finset.range cs2.length)
              p.clusterIndex.toNat
              (fun j => KM.euclideanDistance ⟨p.x, p.y⟩
                ⟨(cs2.getD j ⟨0, 0⟩).x, (cs2.getD j ⟨0, 0⟩).y⟩ ^ 2),
            if_pos (Finset.mem_range.mpr hp.2)]
          ring

theorem map_dist_sq_eq (a b : ℝ) (pts : List KM.KPoint) :
    (pts.map fun p =>
      KM.euclideanDistance ⟨p.x, p.y⟩ (⟨a, b⟩ : Pt) ^ 2).sum =
    (pts.map fun p => (p.x - a) ^ 2 + (p.y - b) ^ 2).sum := by
  refine congrArg List.sum (List.map_congr_left ?_)
  intro p hp
  rw [euclideanDistance_sq]
  ring

theorem wcss_update_le (data : List KM.KPoint) (cs : List KM.Centroid)
    (hvalid : ∀ p ∈ data,
      0 ≤ p.clusterIndex ∧ p.clusterIndex.toNat < cs.length) :
    KM.wcss data (KM.updateCentroids data cs).1 ≤ KM.wcss data cs := by
  have hlen : (KM.updateCentroids data cs).1.length = cs.length := by
    simp [KM.updateCentroids]
  rw [wcss_eq_sum_fibers data cs hvalid,
    wcss_eq_sum_fibers data (KM.updateCentroids data cs).1
      (by rw [hlen]; exact hvalid), hlen]
  refine Finset.sum_le_sum ?_
  intro j hj
  have hj2 := Finset.mem_range.mp hj
  simp only [KM.updateCentroids_getD data cs j hj2, KM.updateCentroid_eq,
    apply_ite Prod.fst]
  by_cases hcond : (KM.clusterPts data j).length ≠ 0 ∧
      1 < KM.meanShift data j (cs.getD j ⟨0, 0⟩)
  · rw [if_pos hcond]
    have hne : KM.clusterPts data j ≠ [] := by
      intro hnil
      exact hcond.1 (by rw [hnil]; rfl)
    show ((KM.clusterPts data j).map fun p =>
        KM.euclideanDistance ⟨p.x, p.y⟩
          ⟨(KM.clusterMean data j).x, (KM.clusterMean data j).y⟩ ^ 2).sum ≤ _
    rw [map_dist_sq_eq, map_dist_sq_eq]
    have hmean := cluster_sum_sq_mean_le (KM.clusterPts data j)
      (cs.getD j ⟨0, 0⟩).x (cs.getD j ⟨0, 0⟩).y hne
    have hmx : (KM.clusterMean data j).x =
        ((KM.clusterPts data j).map fun q => q.x).sum /
          (KM.clusterPts data j).length := rfl
    have hmy : (KM.clusterMean data j).y =
        ((KM.clusterPts data j).map fun q => q.y).sum /
          (KM.clusterPts data j).length := rfl
    rw [hmx, hmy]
    exact hmean
  · rw [if_neg hcond]

/-- C5: on fixed data, the total within-cluster sum of squared
distances is non-increasing across a full ASSIGN to UPDATE cycle of
the k-means state machine: starting from a state in phase ASSIGN with
at least one centroid and a valid assignment, running performNextStep
twice (the ASSIGN step then the UPDATE step) never increases the
within-cluster sum of squares. -/
theorem kmeans_wcss_nonincreasing
    (initFn : List KM.KPoint → List KM.Centroid) (s : KM.KMState)
    (hs : s.algoState = .ASSIGN) (hne : s.centroids ≠ [])
    (hvalid : ∀ p ∈ s.data,
      0 ≤ p.clusterIndex ∧ p.clusterIndex.toNat < s.centroids.length) :
    KM.wcss (KM.performNextStep initFn (KM.performNextStep initFn s)).data
      (KM.performNextStep initFn (KM.performNextStep initFn s)).centroids ≤
    KM.wcss s.data s.centroids := by
  have hstep1 : KM.performNextStep initFn s =
      { s with data := KM.assignClusters s.centroids s.data,
               algoState := .UPDATE } := by
    unfold KM.performNextStep
    rw [hs]
  have hstep2 : KM.performNextStep initFn (KM.performNextStep initFn s) =
      { s with
        data := KM.assignClusters s.centroids s.data,
        centroids := (KM.updateCentroids
          (KM.assignClusters s.centroids s.data) s.centroids).1,
        iteration := s.iteration + 1,
        algoState := if (KM.updateCentroids
            (KM.assignClusters s.centroids s.data) s.centroids).2
          then .ASSIGN else .CONVERGED } := by
    rw [hstep1]
    unfold KM.performNextStep
    rfl
  rw [hstep2]
  calc KM.wcss (KM.assignClusters s.centroids s.data)
        (KM.updateCentroids
          (KM.assignClusters s.centroids s.data) s.centroids).1
      ≤ KM.wcss (KM.assignClusters s.centroids s.data) s.centroids :=
        wcss_update_le (KM.assignClusters s.centroids s.data) s.centroids
          (assignClusters_valid s.centroids s.data hne)
    _ ≤ KM.wcss s.data s.centroids :=
        wcss_assign_le s.centroids s.data hne
          (fun p hp => (hvalid p hp).2)

/-- C5 witness: the cycle inequality applied to a concrete one-point,
one-centroid state in phase ASSIGN, with all hypotheses discharged. -/
theorem kmeans_wcss_nonincreasing_witness :
    KM.KMState.algoState ⟨[⟨2, 0, 0⟩], [⟨0, 0⟩], .ASSIGN, 0⟩ = .ASSIGN ∧
    ([⟨0, 0⟩] : List KM.Centroid) ≠ [] ∧
    (∀ p ∈ ([⟨2, 0, 0⟩] : List KM.KPoint),
      0 ≤ p.clusterIndex ∧ p.clusterIndex.toNat <
        ([⟨0, 0⟩] : List KM.Centroid).length) ∧
    KM.wcss (KM.performNextStep (fun _ => [])
        (KM.performNextStep (fun _ => [])
          ⟨[⟨2, 0, 0⟩], [⟨0, 0⟩], .ASSIGN, 0⟩)).data
      (KM.performNextStep (fun _ => [])
        (KM.performNextStep (fun _ => [])
          ⟨[⟨2, 0, 0⟩], [⟨0, 0⟩], .ASSIGN, 0⟩)).centroids ≤
    KM.wcss [⟨2, 0, 0⟩] [⟨0, 0⟩] :=
  have hvalid : ∀ p ∈ ([⟨2, 0, 0⟩] : List KM.KPoint),
      0 ≤ p.clusterIndex ∧ p.clusterIndex.toNat <
        ([⟨0, 0⟩] : List KM.Centroid).length := by
    intro p hp
    rw [List.mem_singleton] at hp
    subst hp
    exact ⟨le_refl 0, by norm_num⟩
  ⟨rfl, by simp, hvalid,
   kmeans_wcss_nonincreasing (fun _ => [])
     ⟨[⟨2, 0, 0⟩], [⟨0, 0⟩], .ASSIGN, 0⟩ rfl (by simp) hvalid⟩
